import Mathlib

/-!
# FinTrack: a shallow embedding of the ledger core, with its specification checked

This file embeds the ledger-construction and point-in-time-query engine of the
FinTrack repository (`src/FinTrack/parsing_tools.py`, `validation.py`,
`portfolio.py`) into Lean and proves or refutes the specified properties.

Modelling conventions:
* dates are day numbers in `ℤ` (ISO date strings compare exactly like their day
  numbers, so SQL string comparison on `Date` columns is `≤` on `ℤ`);
* money and prices are `ℚ` (the Python floats are treated as exact numbers by
  the spec; no float rounding claims are in scope);
* SQLite tables are association lists; `INSERT OR REPLACE` on the primary key
  is replace-in-place-or-append; `SELECT ... WHERE Date <= d ORDER BY Date
  DESC LIMIT 1` is the `bestLE` query below;
* a transaction `Type` is kept as a `String`, exactly as the code compares it;
* fallible steps return `Option` / `Except`.
-/

/-- A parsed transaction row of the log (`Date`, `Ticker`, `Type`, `Amount`,
`Price`).  `Amount` is validated to be a positive integer by
`TransactionValidator`, so it is carried as `ℤ`; `Price` is optional
(an empty cell reads as NaN and means "use market price"). -/
structure Txn where
  date : ℤ
  ticker : String
  ty : String
  amount : ℤ
  price : Option ℚ
deriving DecidableEq, Repr

/-! ## Point-in-time query layer

`get_price`, `get_cash_balance` and `get_portfolio` all run the same SQL
shape: `SELECT ... WHERE Date <= ? ORDER BY Date DESC LIMIT 1`.  `bestLE d
series` returns the entry with the largest key `≤ d`; `valueAsOf` projects its
value.  Keys are unique in every table (primary keys), so "the" maximal entry
is well defined there. -/

/-- Entry of `series` with the largest key `≤ d` (`ORDER BY Date DESC LIMIT 1`),
or `none` when no key is `≤ d`. -/
def bestLE {α : Type} (d : ℤ) : List (ℤ × α) → Option (ℤ × α)
  | [] => none
  | kv :: rest =>
    match bestLE d rest with
    | none => if kv.1 ≤ d then some kv else none
    | some best =>
      if kv.1 ≤ d then (if best.1 < kv.1 then some kv else some best) else some best

/-- The most recent value on or before `d` in a date-keyed series. -/
def valueAsOf {α : Type} (series : List (ℤ × α)) (d : ℤ) : Option α :=
  (bestLE d series).map Prod.snd

theorem bestLE_cases {α : Type} (d : ℤ) (l : List (ℤ × α)) :
    (bestLE d l = none ∧ ∀ kv ∈ l, d < kv.1)
    ∨ (∃ b, bestLE d l = some b ∧ b ∈ l ∧ b.1 ≤ d ∧
        ∀ kv ∈ l, kv.1 ≤ d → kv.1 ≤ b.1) := by
  induction l with
  | nil => exact Or.inl ⟨rfl, by simp⟩
  | cons kv rest ih =>
    rcases ih with ⟨hn, hall⟩ | ⟨b, hb, hmem, hble, hmax⟩
    · by_cases hd : kv.1 ≤ d
      · refine Or.inr ⟨kv, ?_, List.mem_cons_self _ _, hd, ?_⟩
        · simp [bestLE, hn, hd]
        · intro x hx hxd
          rcases List.mem_cons.mp hx with hx | hx
          · exact hx ▸ le_refl _
          · exact absurd hxd (not_le.mpr (hall x hx))
      · refine Or.inl ⟨by simp [bestLE, hn, hd], ?_⟩
        intro x hx
        rcases List.mem_cons.mp hx with hx | hx
        · exact hx ▸ lt_of_not_le hd
        · exact hall x hx
    · by_cases hd : kv.1 ≤ d
      · by_cases hbk : b.1 < kv.1
        · refine Or.inr ⟨kv, ?_, List.mem_cons_self _ _, hd, ?_⟩
          · simp [bestLE, hb, hd, hbk]
          · intro x hx hxd
            rcases List.mem_cons.mp hx with hx | hx
            · exact hx ▸ le_refl _
            · exact le_of_lt (lt_of_le_of_lt (hmax x hx hxd) hbk)
        · refine Or.inr ⟨b, ?_, List.mem_cons_of_mem _ hmem, hble, ?_⟩
          · simp [bestLE, hb, hd, hbk]
          · intro x hx hxd
            rcases List.mem_cons.mp hx with hx | hx
            · exact hx ▸ not_lt.mp hbk
            · exact hmax x hx hxd
      · refine Or.inr ⟨b, ?_, List.mem_cons_of_mem _ hmem, hble, ?_⟩
        · simp [bestLE, hb, hd]
        · intro x hx hxd
          rcases List.mem_cons.mp hx with hx | hx
          · exact absurd (hx ▸ hxd) hd
          · exact hmax x hx hxd

theorem bestLE_eq_none_iff {α : Type} (d : ℤ) (l : List (ℤ × α)) :
    bestLE d l = none ↔ ∀ kv ∈ l, d < kv.1 := by
  rcases bestLE_cases d l with ⟨hn, hall⟩ | ⟨b, hb, hmem, hble, _⟩
  · exact ⟨fun _ => hall, fun _ => hn⟩
  · constructor
    · intro h; rw [h] at hb; exact absurd hb (by simp)
    · intro h; exact absurd (h b hmem) (not_lt.mpr hble)

theorem bestLE_eq_some {α : Type} {d : ℤ} {l : List (ℤ × α)} {b : ℤ × α}
    (h : bestLE d l = some b) :
    b ∈ l ∧ b.1 ≤ d ∧ ∀ kv ∈ l, kv.1 ≤ d → kv.1 ≤ b.1 := by
  rcases bestLE_cases d l with ⟨hn, _⟩ | ⟨b', hb', hmem, hble, hmax⟩
  · rw [hn] at h; exact absurd h (by simp)
  · rw [hb'] at h
    obtain rfl : b' = b := by injection h
    exact ⟨hmem, hble, hmax⟩

theorem bestLE_isSome_of_mem {α : Type} {d : ℤ} {l : List (ℤ × α)} {kv : ℤ × α}
    (hmem : kv ∈ l) (hle : kv.1 ≤ d) : ∃ b, bestLE d l = some b := by
  rcases bestLE_cases d l with ⟨_, hall⟩ | ⟨b, hb, _⟩
  · exact absurd (hall kv hmem) (not_lt.mpr hle)
  · exact ⟨b, hb⟩

/-- In a list of entries with pairwise strictly increasing keys, equal keys
force equal entries. -/
theorem key_inj_of_pairwise {α : Type} :
    ∀ {l : List (ℤ × α)}, List.Pairwise (fun a b => a.1 < b.1) l →
      ∀ {x y : ℤ × α}, x ∈ l → y ∈ l → x.1 = y.1 → x = y := by
  intro l
  induction l with
  | nil => intro _ x y hx; cases hx
  | cons z rest ih =>
    intro hp x y hx hy hxy
    rcases List.pairwise_cons.mp hp with ⟨hz, hrest⟩
    rcases List.mem_cons.mp hx with hx1 | hx1
    · rcases List.mem_cons.mp hy with hy1 | hy1
      · rw [hx1, hy1]
      · rw [hx1] at hxy ⊢
        exact absurd hxy (ne_of_lt (hz y hy1))
    · rcases List.mem_cons.mp hy with hy1 | hy1
      · rw [hy1] at hxy ⊢
        exact absurd hxy.symm (ne_of_lt (hz x hx1))
      · exact ih hrest hx1 hy1 hxy

theorem bestLE_exact {α : Type} {d : ℤ} {l : List (ℤ × α)} {v : α}
    (hp : List.Pairwise (fun a b => a.1 < b.1) l)
    (hmem : (d, v) ∈ l) : bestLE d l = some (d, v) := by
  obtain ⟨b, hb⟩ := bestLE_isSome_of_mem hmem (le_refl d)
  obtain ⟨hbmem, hble, hmax⟩ := bestLE_eq_some hb
  have hbd : b.1 = d := le_antisymm hble (hmax (d, v) hmem (le_refl d))
  rw [hb, key_inj_of_pairwise hp hbmem hmem hbd]

/-! ## Holdings Ledger Builder (`build_holding_table` / `get_portfolio`)

`build_holding_table` writes one row per distinct transaction date; the row
holds, for every ticker ever traded, the cumulative signed count
`inflows - outflows` where inflows sum `Amount` over `Type ∈ {Buy, Cover}`
and outflows over `Type ∈ {Sell, Short}`, both restricted to `Date <=` the
row date.  A zero count is stored as `None` and `fillna(0)` turns it into 0;
`get_portfolio` then drops zero entries. -/

/-- Transactions of ticker `t` dated on or before `d`:
`df[(df["Ticker"] == ticker) & (df["Date"] <= date_val)]`. -/
def selTxns (rows : List Txn) (t : String) (d : ℤ) : List Txn :=
  rows.filter (fun r => r.ticker == t && decide (r.date ≤ d))

/-- Sum of `Amount` over rows with `Type.isin(["Buy", "Cover"])`. -/
def inflowsOf (l : List Txn) : ℤ :=
  ((l.filter (fun r => r.ty == "Buy" || r.ty == "Cover")).map Txn.amount).sum

/-- Sum of `Amount` over rows with `Type.isin(["Sell", "Short"])`. -/
def outflowsOf (l : List Txn) : ℤ :=
  ((l.filter (fun r => r.ty == "Sell" || r.ty == "Short")).map Txn.amount).sum

/-- `holdings = inflows - outflows` for ticker `t` as of date `d`. -/
def cumHoldings (rows : List Txn) (t : String) (d : ℤ) : ℤ :=
  inflowsOf (selTxns rows t d) - outflowsOf (selTxns rows t d)

/-- The value stored in the holdings row for ticker `t` at snapshot date `d`:
the code stores `holdings` when non-zero, `None` otherwise (also when the
ticker has no transactions yet), and `fillna(0)` then replaces `None` by 0. -/
def storedHolding (rows : List Txn) (t : String) (d : ℤ) : ℤ :=
  if 0 < (selTxns rows t d).length then
    (if cumHoldings rows t d ≠ 0 then cumHoldings rows t d else 0)
  else 0

/-- `all_dates = sorted(df["Date"].unique())`. -/
def datesOf (rows : List Txn) : List ℤ :=
  List.insertionSort (· ≤ ·) ((rows.map Txn.date).dedup)

/-- `all_tickers = sorted(df["Ticker"].unique())`.  The alphabetical sort only
fixes presentation order; every later access is a keyed lookup, so the
embedding keeps the first-occurrence order of `unique()`. -/
def tickersOf (rows : List Txn) : List String :=
  (rows.map Txn.ticker).dedup

/-- One holdings row: the stored count for every ticker ever traded. -/
def holdingRow (rows : List Txn) (d : ℤ) : List (String × ℤ) :=
  (tickersOf rows).map (fun t => (t, storedHolding rows t d))

/-- The `portfolio` table: one row per distinct transaction date (ascending). -/
def portfolioTable (rows : List Txn) : List (ℤ × List (String × ℤ)) :=
  (datesOf rows).map (fun d => (d, holdingRow rows d))

/-- `get_portfolio`: latest row with `Date <= d`, zero entries dropped; `{}`
when no row qualifies.  (The code additionally sorts the resulting dict for
presentation, which does not change the mapping.) -/
def getPortfolio (tbl : List (ℤ × List (String × ℤ))) (d : ℤ) : List (String × ℤ) :=
  match bestLE d tbl with
  | none => []
  | some kv => kv.2.filter (fun p => p.2 != 0)

theorem storedHolding_eq_cum (rows : List Txn) (t : String) (d : ℤ) :
    storedHolding rows t d = cumHoldings rows t d := by
  unfold storedHolding
  by_cases hlen : 0 < (selTxns rows t d).length
  · by_cases hc : cumHoldings rows t d ≠ 0 <;> simp [hlen, hc]
    omega
  · have hsel : selTxns rows t d = [] := by
      cases h : selTxns rows t d with
      | nil => rfl
      | cons a l => rw [h] at hlen; simp at hlen
    simp [hlen, cumHoldings, hsel, inflowsOf, outflowsOf]

theorem date_mem_datesOf {rows : List Txn} {r : Txn} (h : r ∈ rows) :
    r.date ∈ datesOf rows := by
  unfold datesOf
  rw [(List.perm_insertionSort _ _).mem_iff, List.mem_dedup]
  exact List.mem_map_of_mem Txn.date h

theorem ticker_mem_tickersOf {rows : List Txn} {r : Txn} (h : r ∈ rows) :
    r.ticker ∈ tickersOf rows := by
  unfold tickersOf
  rw [List.mem_dedup]
  exact List.mem_map_of_mem Txn.ticker h

theorem selTxns_eq_nil_of_not_mem {rows : List Txn} {t : String}
    (h : t ∉ tickersOf rows) (d : ℤ) : selTxns rows t d = [] := by
  unfold selTxns
  rw [List.filter_eq_nil_iff]
  intro r hr
  have : r.ticker ≠ t := fun he => h (he ▸ ticker_mem_tickersOf hr)
  simp [this]

theorem cum_eq_zero_of_not_mem {rows : List Txn} {t : String}
    (h : t ∉ tickersOf rows) (d : ℤ) : cumHoldings rows t d = 0 := by
  simp [cumHoldings, selTxns_eq_nil_of_not_mem h, inflowsOf, outflowsOf]

theorem lookup_holdingRow_filter (g : String → ℤ) (ts : List String) (t : String) :
    List.lookup t ((ts.map (fun s => (s, g s))).filter (fun p => p.2 != 0))
      = if t ∈ ts then (if g t = 0 then none else some (g t)) else none := by
  induction ts with
  | nil => simp
  | cons s ts ih =>
    simp only [List.map_cons, List.filter_cons]
    by_cases hg : g s = 0
    · rw [hg]
      simp only [bne_self_eq_false, Bool.false_eq_true, if_false]
      rw [ih]
      by_cases hts : t = s
      · subst hts
        by_cases htm : t ∈ ts <;> simp [htm, hg]
      · simp [List.mem_cons, hts]
    · have hcond : (g s != 0) = true := by simp [hg]
      rw [hcond]
      simp only [if_pos rfl]
      by_cases hts : t = s
      · subst hts
        simp [List.lookup, List.mem_cons, hg]
      · have htb : (t == s) = false := beq_eq_false_iff_ne.mpr hts
        simp only [List.lookup, htb]
        rw [ih]
        simp [List.mem_cons, hts]

theorem selTxns_congr {rows : List Txn} {d m : ℤ} (t : String)
    (hmd : m ≤ d)
    (hmax : ∀ r ∈ rows, r.date ≤ d → r.date ≤ m) :
    selTxns rows t d = selTxns rows t m := by
  unfold selTxns
  apply List.filter_congr
  intro r hr
  by_cases hrt : (r.ticker == t) = true
  · simp only [hrt, Bool.true_and]
    apply decide_eq_decide.mpr
    exact ⟨fun h => hmax r hr h, fun h => le_trans h hmd⟩
  · have hf : (r.ticker == t) = false := by simpa using hrt
    simp [hf]

/-- C2: for every transaction log, every query date `d` and every instrument
`t`, the holdings value that `build_holding_table` stores and `get_portfolio`
returns equals the sum of `Amount` over `{Buy, Cover}` transactions dated
`≤ d` minus the sum over `{Sell, Short}` transactions dated `≤ d`, recomputed
independently from the raw log; instruments whose cumulative count is zero
are absent from the returned mapping. -/
theorem getPortfolio_holdings_invariant (rows : List Txn) (d : ℤ) (t : String) :
    List.lookup t (getPortfolio (portfolioTable rows) d)
      = if cumHoldings rows t d = 0 then none
        else some (cumHoldings rows t d) := by
  cases hb : bestLE d (portfolioTable rows) with
  | none =>
    have hall := (bestLE_eq_none_iff d (portfolioTable rows)).mp hb
    have hnotxn : ∀ r ∈ rows, ¬ (r.date ≤ d) := by
      intro r hr
      have hm : (r.date, holdingRow rows r.date) ∈ portfolioTable rows :=
        List.mem_map_of_mem _ (date_mem_datesOf hr)
      exact not_le.mpr (hall _ hm)
    have hsel : selTxns rows t d = [] := by
      unfold selTxns
      rw [List.filter_eq_nil_iff]
      intro r hr
      simp [hnotxn r hr]
    have hcum : cumHoldings rows t d = 0 := by
      simp [cumHoldings, hsel, inflowsOf, outflowsOf]
    simp [getPortfolio, hb, hcum]
  | some kv =>
    obtain ⟨hmem, hle, hmax⟩ := bestLE_eq_some hb
    obtain ⟨m, hmdates, hkv⟩ := List.mem_map.mp hmem
    have hkv1 : kv.1 = m := by rw [← hkv]
    have hkv2 : kv.2 = holdingRow rows m := by rw [← hkv]
    have hmd : m ≤ d := hkv1 ▸ hle
    have hmax' : ∀ r ∈ rows, r.date ≤ d → r.date ≤ m := by
      intro r hr hrd
      have hm : (r.date, holdingRow rows r.date) ∈ portfolioTable rows :=
        List.mem_map_of_mem _ (date_mem_datesOf hr)
      have h2 := hmax _ hm hrd
      rwa [hkv1] at h2
    have hcongr : cumHoldings rows t m = cumHoldings rows t d := by
      unfold cumHoldings
      rw [selTxns_congr t hmd hmax']
    simp only [getPortfolio, hb, hkv2, holdingRow]
    rw [lookup_holdingRow_filter]
    by_cases htm : t ∈ tickersOf rows
    · rw [if_pos htm, storedHolding_eq_cum, hcongr]
    · rw [if_neg htm, cum_eq_zero_of_not_mem htm]
      simp

/-! ## Transaction validation (`TransactionValidator`) and the build pipeline

`build_holding_table` first runs `pd.to_datetime(df["Date"])` on the whole
column — an unparseable date raises here, and the surrounding
`except Exception` wraps it in `DatabaseError` — and only then runs
`TransactionValidator.validate_dataframe`, whose failure raises
`ValidationError`.  `VALID_TYPES = {"Buy", "Sell"}`: the validator accepts
only the legacy two types. -/

/-- A raw CSV row before the pipeline runs.  `dateOk` is whether
`pd.to_datetime` can parse the `Date` cell (with `date` its parsed value);
`price = none` models an empty cell, which reads as NaN and passes both
numeric checks of the validator. -/
structure RawRow where
  dateOk : Bool
  date : ℤ
  ticker : String
  ty : String
  amount : ℚ
  price : Option ℚ
deriving DecidableEq, Repr

/-- `TransactionValidator.VALID_TYPES = {"Buy", "Sell"}`. -/
def VALID_TYPES : List String := ["Buy", "Sell"]

/-- Models `str(row["Ticker"]).strip() == ""`: stripping leaves the empty
string exactly when every character is whitespace. -/
def tickerBlank (s : String) : Bool := s.toList.all Char.isWhitespace

/-- `TransactionValidator.validate_row` returns no errors: the date parses,
the stripped ticker is non-empty, the type is in `VALID_TYPES`, the amount is
a positive integer, and the price — when the cell is non-empty — is neither
negative nor zero. -/
def rowValid (r : RawRow) : Bool :=
  r.dateOk
  && !(tickerBlank r.ticker)
  && decide (r.ty ∈ VALID_TYPES)
  && decide (0 < r.amount)
  && (r.amount.den == 1)
  && (match r.price with
      | none => true
      | some p => decide (0 < p))

/-- `TransactionValidator.validate_dataframe`: valid iff every row validates
(the required-columns check is vacuous here because every embedded row
carries all five fields). -/
def validateDataframe (rows : List RawRow) : Bool := rows.all rowValid

/-- A validated row as a parsed transaction.  (Validation forces
`amount.den = 1`, so `amount.num` is the exact integer amount.) -/
def toTxn (r : RawRow) : Txn :=
  ⟨r.date, r.ticker, r.ty, r.amount.num, r.price⟩

/-- Error taxonomy of `build_holding_table`: `ValidationError` from the
validator, `DatabaseError` from the catch-all `except Exception` wrapper. -/
inductive BuildError
  | validationError
  | databaseError
deriving DecidableEq, Repr

/-- `build_holding_table` as a state transformer on the stored `portfolio`
table: parse the `Date` column (an unparseable date raises, and the
catch-all wraps it in `DatabaseError`), then validate (failure raises
`ValidationError`), then replace the whole table.  On any error the stored
table is returned unchanged — no partial write happens. -/
def buildHoldingTableRun (rows : List RawRow)
    (st : Option (List (ℤ × List (String × ℤ)))) :
    Except BuildError Unit × Option (List (ℤ × List (String × ℤ))) :=
  if rows.all RawRow.dateOk then
    if validateDataframe rows then
      (.ok (), some (portfolioTable (rows.map toTxn)))
    else (.error .validationError, st)
  else (.error .databaseError, st)

theorem selTxns_append (a b : List Txn) (t : String) (d : ℤ) :
    selTxns (a ++ b) t d = selTxns a t d ++ selTxns b t d := by
  simp [selTxns, List.filter_append]

theorem inflowsOf_append (a b : List Txn) :
    inflowsOf (a ++ b) = inflowsOf a + inflowsOf b := by
  simp [inflowsOf, List.filter_append]

theorem outflowsOf_append (a b : List Txn) :
    outflowsOf (a ++ b) = outflowsOf a + outflowsOf b := by
  simp [outflowsOf, List.filter_append]

theorem cumHoldings_append_short (rows : List Txn) (r : Txn) (t : String) (d : ℤ)
    (hS : r.ty = "Short") (ht : r.ticker = t) (hd : r.date ≤ d) :
    cumHoldings (rows ++ [r]) t d = cumHoldings rows t d - r.amount := by
  have hsel : selTxns [r] t d = [r] := by simp [selTxns, ht, hd]
  have hin : inflowsOf [r] = 0 := by simp [inflowsOf, hS]
  have hout : outflowsOf [r] = r.amount := by simp [outflowsOf, hS]
  unfold cumHoldings
  rw [selTxns_append, inflowsOf_append, outflowsOf_append, hsel, hin, hout]
  ring

theorem cumHoldings_append_cover (rows : List Txn) (r : Txn) (t : String) (d : ℤ)
    (hC : r.ty = "Cover") (ht : r.ticker = t) (hd : r.date ≤ d) :
    cumHoldings (rows ++ [r]) t d = cumHoldings rows t d + r.amount := by
  have hsel : selTxns [r] t d = [r] := by simp [selTxns, ht, hd]
  have hin : inflowsOf [r] = r.amount := by simp [inflowsOf, hC]
  have hout : outflowsOf [r] = 0 := by simp [outflowsOf, hC]
  unfold cumHoldings
  rw [selTxns_append, inflowsOf_append, outflowsOf_append, hsel, hin, hout]
  ring

/-- C1 (counterexample): a fully well-formed row whose `Type` is `Short` is
rejected by `build_holding_table` with a `ValidationError`, because
`TransactionValidator.VALID_TYPES` only contains `Buy` and `Sell`. -/
theorem short_row_rejected_counterexample :
    buildHoldingTableRun [⟨true, 1, "X", "Short", 5, some 100⟩] none
      = (.error .validationError, none) := by rfl

/-- C1 (amended): `build_holding_table` accepts exactly the logs that the
legacy two-value validator passes — every row well-formed with
`Type ∈ {Buy, Sell}` — and then rebuilds the table; within the holdings
accumulation itself, a `Short` transaction decreases and a `Cover`
transaction increases the instrument's signed share count. -/
theorem buildHoldingTable_accepts_and_signs
    (rawRows : List RawRow) (st : Option (List (ℤ × List (String × ℤ))))
    (txRows : List Txn) (t : String) (d : ℤ) (rS rC : Txn)
    (hv : validateDataframe rawRows = true)
    (hS : rS.ty = "Short") (hSt : rS.ticker = t) (hSd : rS.date ≤ d)
    (hC : rC.ty = "Cover") (hCt : rC.ticker = t) (hCd : rC.date ≤ d) :
    buildHoldingTableRun rawRows st
      = (.ok (), some (portfolioTable (rawRows.map toTxn)))
    ∧ cumHoldings (txRows ++ [rS]) t d = cumHoldings txRows t d - rS.amount
    ∧ cumHoldings (txRows ++ [rC]) t d = cumHoldings txRows t d + rC.amount := by
  refine ⟨?_, cumHoldings_append_short txRows rS t d hS hSt hSd,
          cumHoldings_append_cover txRows rC t d hC hCt hCd⟩
  have hdates : rawRows.all RawRow.dateOk = true := by
    simp only [validateDataframe] at hv
    rw [List.all_eq_true] at hv ⊢
    intro r hr
    have hr2 := hv r hr
    simp only [rowValid, Bool.and_eq_true] at hr2
    exact hr2.1.1.1.1.1
  simp [buildHoldingTableRun, hdates, hv]

theorem buildHoldingTable_accepts_and_signs_witness :
    buildHoldingTableRun [⟨true, 1, "X", "Buy", 10, some 100⟩] none
      = (.ok (), some (portfolioTable ([⟨true, 1, "X", "Buy", 10, some 100⟩].map toTxn)))
    ∧ cumHoldings ([] ++ [⟨2, "X", "Short", 5, none⟩]) "X" 3
        = cumHoldings [] "X" 3 - (5 : ℤ)
    ∧ cumHoldings ([] ++ [⟨2, "X", "Cover", 7, none⟩]) "X" 3
        = cumHoldings [] "X" 3 + (7 : ℤ) :=
  buildHoldingTable_accepts_and_signs
    [⟨true, 1, "X", "Buy", 10, some 100⟩] none [] "X" 3
    ⟨2, "X", "Short", 5, none⟩ ⟨2, "X", "Cover", 7, none⟩
    (by decide) rfl rfl (by decide) rfl rfl (by decide)

/-- C9 (code evaluated at the failing input): a log whose only row has an
unparseable `Date` cell fails with `DatabaseError` — the parse error from
`pd.to_datetime` happens before validation and is wrapped by the catch-all —
not with the `ValidationError` the spec promises; the stored table is left
untouched either way. -/
theorem bad_date_raises_databaseError :
    buildHoldingTableRun [⟨false, 0, "AAPL", "Buy", 10, some 150⟩] none
      = (.error .databaseError, none) := by rfl

/-! ## Cash Ledger Builder (`build_cash_table`)

The builder seeds or resumes the `cash` table, collects transaction events
(strictly after the last processed date) and dividend events (only for
tickers with a strictly positive snapshot on the dividend date), sorts all
events by date, and replays them over a running balance.  Every processed
event `INSERT OR REPLACE`s the cash entry at its date. -/

/-- `INSERT OR REPLACE INTO cash (Date, Cash_Balance)`: replace the entry
with this primary key in place, or append a new one. -/
def insertOrReplaceCash (d : ℤ) (bal : ℚ) (tbl : List (ℤ × ℚ)) : List (ℤ × ℚ) :=
  if tbl.any (fun e => e.1 == d) then
    tbl.map (fun e => if e.1 == d then (d, bal) else e)
  else tbl ++ [(d, bal)]

/-- Payload of a replay event: a transaction row, or a dividend carrying
`(ticker, per-share amount, shares held)`. -/
inductive EventData
  | txnEv (ticker ty : String) (amount : ℤ)
  | dividendEv (ticker : String) (perShare : ℚ) (shares : ℤ)
deriving DecidableEq, Repr

/-- A dated replay event. -/
structure Event where
  date : ℤ
  data : EventData
deriving DecidableEq, Repr

/-- Running state of the replay: current balance and the `cash` table. -/
structure CashState where
  balance : ℚ
  table : List (ℤ × ℚ)
deriving DecidableEq, Repr

/-- One iteration of the replay loop.  A transaction event resolves its
price with `get_price` (largest price date `≤` event date); on `None` it is
skipped with a warning.  `Buy`/`Cover` subtract `amount × price`,
`Sell`/`Short` add it; any other type falls through the `elif` chain and
changes nothing.  A dividend event credits `per-share × shares`, converted
via an FX rate when the instrument's currency differs from the base currency
and a rate is available.  Every processed event `INSERT OR REPLACE`s the cash
entry at its date. -/
def processEvent (priceAt : String → ℤ → Option ℚ) (currencyOf : String → String)
    (fxAt : ℤ → String → String → Option ℚ) (baseCur : String)
    (st : CashState) (e : Event) : CashState :=
  match e.data with
  | .txnEv ticker ty amount =>
    match priceAt ticker e.date with
    | none => st
    | some price =>
      let value : ℚ := amount * price
      let newBal :=
        if ty = "Buy" then st.balance - value
        else if ty = "Sell" then st.balance + value
        else if ty = "Short" then st.balance + value
        else if ty = "Cover" then st.balance - value
        else st.balance
      ⟨newBal, insertOrReplaceCash e.date newBal st.table⟩
  | .dividendEv ticker perShare shares =>
    let total : ℚ := perShare * shares
    let total :=
      if currencyOf ticker ≠ baseCur then
        match fxAt e.date (currencyOf ticker) baseCur with
        | some r => total * r
        | none => total
      else total
    let newBal := st.balance + total
    ⟨newBal, insertOrReplaceCash e.date newBal st.table⟩

/-- `events.sort(key=lambda x: x["date"])` — a stable sort by date. -/
def sortEvents (events : List Event) : List Event :=
  List.insertionSort (fun a b => a.date ≤ b.date) events

/-- The replay loop: fold `processEvent` over the date-sorted events. -/
def replayEvents (priceAt : String → ℤ → Option ℚ) (currencyOf : String → String)
    (fxAt : ℤ → String → String → Option ℚ) (baseCur : String)
    (st : CashState) (events : List Event) : CashState :=
  (sortEvents events).foldl (processEvent priceAt currencyOf fxAt baseCur) st

/-- `df["Date"].min()` over the transaction log, `none` on an empty log. -/
def minDate : List ℤ → Option ℤ
  | [] => none
  | d :: ds => some (ds.foldl min d)

/-- `SELECT Date, Cash_Balance FROM cash ORDER BY Date DESC LIMIT 1`. -/
def maxEntry : List (ℤ × ℚ) → Option (ℤ × ℚ)
  | [] => none
  | e :: rest =>
    match maxEntry rest with
    | none => some e
    | some b => if b.1 < e.1 then some e else some b

/-- Outcome of the seeding phase of `build_cash_table`: the table to start
from, the starting balance, the last processed date, and whether this is an
initial build. -/
structure SeedResult where
  table : List (ℤ × ℚ)
  previousBalance : ℚ
  lastProcessedDate : ℤ
  isInitialBuild : Bool
deriving DecidableEq, Repr

/-- The seeding phase of `build_cash_table`.  Three source branches:
the `cash` table does not exist — create it and seed one entry at
`df["Date"].min() - timedelta(days=1)` with the initial balance; the table
exists and has a latest row — resume from it; the table exists but is empty —
seed one entry at `df["Date"].min()` (no one-day offset in this branch) with
the initial balance.  An empty transaction log would make `df["Date"].min()`
NaN and is out of the modelled scope (`none`). -/
def cashSeed (cashTbl : Option (List (ℤ × ℚ))) (txDates : List ℤ)
    (initialCash : ℚ) : Option SeedResult :=
  match cashTbl with
  | none =>
    match minDate txDates with
    | none => none
    | some m => some ⟨[(m - 1, initialCash)], initialCash, m - 1, true⟩
  | some tbl =>
    match maxEntry tbl with
    | some e => some ⟨tbl, e.2, e.1, false⟩
    | none =>
      match minDate txDates with
      | none => none
      | some m => some ⟨[(m, initialCash)], initialCash, m, true⟩

/-- The dividend pre-check of `build_cash_table`: does any holdings row
strictly after the last processed date hold a strictly positive count of
`t`?  (`portfolio_df[(portfolio_df["Date"] > last_processed_date) &
(portfolio_df[ticker] > 0)]` is non-empty.) -/
def anyPositiveAfter (tbl : List (ℤ × List (String × ℤ))) (t : String)
    (lastProcessed : ℤ) : Bool :=
  tbl.any (fun row =>
    decide (lastProcessed < row.1) && decide (0 < (List.lookup t row.2).getD 0))

/-- The dividend-event collection of `build_cash_table`: for each ticker that
passes the pre-check, every feed dividend `(date, per-share)` becomes an
event only if `get_portfolio` on the dividend date holds a strictly positive
count of the ticker; the event carries that count as the share multiplier. -/
def collectDividendEvents (tbl : List (ℤ × List (String × ℤ)))
    (tickers : List String) (lastProcessed : ℤ)
    (divFeed : String → List (ℤ × ℚ)) : List Event :=
  (tickers.map (fun t =>
    if anyPositiveAfter tbl t lastProcessed then
      (divFeed t).filterMap (fun dv =>
        match List.lookup t (getPortfolio tbl dv.1) with
        | some s => if 0 < s then some ⟨dv.1, .dividendEv t dv.2 s⟩ else none
        | none => none)
    else [])).flatten

instance eventDateLeTotal : IsTotal Event (fun a b => a.date ≤ b.date) :=
  ⟨fun a b => le_total a.date b.date⟩

instance eventDateLeTrans : IsTrans Event (fun a b => a.date ≤ b.date) :=
  ⟨fun _ _ _ => le_trans⟩

/-- C4: during cash replay the events are processed in ascending date order
(the replay folds over the date-sorted event list), and each event with a
resolvable price changes the running balance exactly as specified — `Buy`
subtracts `amount × price`, `Sell` adds it, `Short` adds it, `Cover`
subtracts it, and a dividend adds `per-share × shares`, FX-converted when the
instrument's currency differs from the base currency and a rate resolves —
and each processed event writes or overwrites the cash entry at its date. -/
theorem cash_replay_spec
    (priceAt : String → ℤ → Option ℚ) (currencyOf : String → String)
    (fxAt : ℤ → String → String → Option ℚ) (baseCur : String)
    (events : List Event) (st : CashState) (d : ℤ) (ticker ty : String)
    (amount : ℤ) (p : ℚ) (perShare : ℚ) (shares : ℤ) (fxr : ℚ)
    (hp : priceAt ticker d = some p) :
    (replayEvents priceAt currencyOf fxAt baseCur st events
        = (sortEvents events).foldl (processEvent priceAt currencyOf fxAt baseCur) st
      ∧ List.Sorted (fun a b : Event => a.date ≤ b.date) (sortEvents events))
    ∧ ((ty = "Buy" →
          processEvent priceAt currencyOf fxAt baseCur st ⟨d, .txnEv ticker ty amount⟩
            = ⟨st.balance - amount * p,
               insertOrReplaceCash d (st.balance - amount * p) st.table⟩)
      ∧ (ty = "Sell" →
          processEvent priceAt currencyOf fxAt baseCur st ⟨d, .txnEv ticker ty amount⟩
            = ⟨st.balance + amount * p,
               insertOrReplaceCash d (st.balance + amount * p) st.table⟩)
      ∧ (ty = "Short" →
          processEvent priceAt currencyOf fxAt baseCur st ⟨d, .txnEv ticker ty amount⟩
            = ⟨st.balance + amount * p,
               insertOrReplaceCash d (st.balance + amount * p) st.table⟩)
      ∧ (ty = "Cover" →
          processEvent priceAt currencyOf fxAt baseCur st ⟨d, .txnEv ticker ty amount⟩
            = ⟨st.balance - amount * p,
               insertOrReplaceCash d (st.balance - amount * p) st.table⟩))
    ∧ ((currencyOf ticker = baseCur →
          processEvent priceAt currencyOf fxAt baseCur st ⟨d, .dividendEv ticker perShare shares⟩
            = ⟨st.balance + perShare * shares,
               insertOrReplaceCash d (st.balance + perShare * shares) st.table⟩)
      ∧ (currencyOf ticker ≠ baseCur →
          fxAt d (currencyOf ticker) baseCur = some fxr →
          processEvent priceAt currencyOf fxAt baseCur st ⟨d, .dividendEv ticker perShare shares⟩
            = ⟨st.balance + perShare * shares * fxr,
               insertOrReplaceCash d (st.balance + perShare * shares * fxr) st.table⟩)) := by
  refine ⟨⟨rfl, List.sorted_insertionSort _ events⟩, ⟨?_, ?_, ?_, ?_⟩, ?_, ?_⟩
  · intro h; subst h; simp [processEvent, hp]
  · intro h; subst h; simp [processEvent, hp]
  · intro h; subst h; simp [processEvent, hp]
  · intro h; subst h; simp [processEvent, hp]
  · intro hcur; simp [processEvent, hcur]
  · intro hcur hfx; simp [processEvent, hcur, hfx]

theorem cash_replay_spec_witness :
    processEvent (fun _ _ => some (10 : ℚ)) (fun _ => "SEK") (fun _ _ _ => some (2 : ℚ))
        "SEK" ⟨1000, []⟩ ⟨3, .txnEv "X" "Buy" 5⟩
      = ⟨1000 - ((5 : ℤ) : ℚ) * 10,
         insertOrReplaceCash 3 (1000 - ((5 : ℤ) : ℚ) * 10) []⟩ :=
  ((cash_replay_spec (fun _ _ => some 10) (fun _ => "SEK") (fun _ _ _ => some 2) "SEK"
      [] ⟨1000, []⟩ 3 "X" "Buy" 5 10 2 7 2 rfl).2.1).1 rfl

/-- C10: a transaction event whose `Type` is none of `Buy`, `Sell`, `Short`
or `Cover` falls through the whole `elif` chain — `build_cash_table` never
validates types — leaving the running balance unchanged, yet the
unconditional `INSERT OR REPLACE` after the chain still writes a cash entry
at the event's date carrying the unchanged balance. -/
theorem unknown_type_event_writes_unchanged_balance
    (priceAt : String → ℤ → Option ℚ) (currencyOf : String → String)
    (fxAt : ℤ → String → String → Option ℚ) (baseCur : String)
    (st : CashState) (d : ℤ) (ticker ty : String) (amount : ℤ) (p : ℚ)
    (hty : ty ∉ (["Buy", "Sell", "Short", "Cover"] : List String))
    (hp : priceAt ticker d = some p) :
    processEvent priceAt currencyOf fxAt baseCur st ⟨d, .txnEv ticker ty amount⟩
      = ⟨st.balance, insertOrReplaceCash d st.balance st.table⟩ := by
  simp only [List.mem_cons, List.not_mem_nil, or_false, not_or] at hty
  obtain ⟨h1, h2, h3, h4⟩ := hty
  simp [processEvent, hp, h1, h2, h3, h4]

theorem unknown_type_event_witness :
    processEvent (fun _ _ => some (10 : ℚ)) (fun _ => "SEK") (fun _ _ _ => none) "SEK"
        ⟨1000, []⟩ ⟨3, .txnEv "X" "Deposit" 5⟩
      = ⟨1000, insertOrReplaceCash 3 1000 []⟩ :=
  unknown_type_event_writes_unchanged_balance (fun _ _ => some 10) (fun _ => "SEK")
    (fun _ _ _ => none) "SEK" ⟨1000, []⟩ 3 "X" "Deposit" 5 10 (by decide) rfl

/-- C5 (counterexample): with an existing-but-empty `cash` table (an initial
build by the code's own `is_initial_build` flag) and a log whose earliest
transaction is on day 5, the seeded entry is dated day 5 itself — not day 4,
one day before, as the claim states. -/
theorem cash_seed_counterexample :
    cashSeed (some []) [5] 100 = some ⟨[(5, 100)], 100, 5, true⟩
    ∧ cashSeed (some []) [5] 100 ≠ some ⟨[(5 - 1, 100)], 100, 5 - 1, true⟩ := by
  refine ⟨rfl, ?_⟩
  intro h
  rw [show ((5 : ℤ) - 1) = 4 from rfl] at h
  have := (Option.some.injEq _ _).mp h
  cases this
  
/-- C5 (amended): on an initial build over a non-empty transaction log, if
the `cash` table does not exist yet the series is seeded with exactly one
entry dated one day before the earliest transaction date, holding the
initial balance; if the table exists but is empty, the single seeded entry is
dated the earliest transaction date itself. -/
theorem cash_seed_amended (txDates : List ℤ) (ic : ℚ) (m : ℤ)
    (hmin : minDate txDates = some m) :
    cashSeed none txDates ic = some ⟨[(m - 1, ic)], ic, m - 1, true⟩
    ∧ cashSeed (some []) txDates ic = some ⟨[(m, ic)], ic, m, true⟩ := by
  constructor <;> simp [cashSeed, maxEntry, hmin]

theorem cash_seed_amended_witness :
    cashSeed none [5] 100 = some ⟨[((5 : ℤ) - 1, (100 : ℚ))], 100, 5 - 1, true⟩
    ∧ cashSeed (some []) [5] 100 = some ⟨[(5, 100)], 100, 5, true⟩ :=
  cash_seed_amended [5] 100 5 rfl

/-- C7: for a date-ordered series (strictly increasing keys, as guaranteed by
the primary keys of the `prices` and `cash` tables), the as-of lookup
returns exactly the value stored at the largest key `≤ d` whenever some key
`≤ d` exists — in particular an exact key match returns that key's value,
and a date lying between two stored keys returns the earlier key's value —
and it returns `none` when `d` precedes all keys (in particular on an empty
series). -/
theorem valueAsOf_spec (series : List (ℤ × ℚ)) (d : ℤ)
    (hkeys : List.Pairwise (fun a b => a.1 < b.1) series) :
    (∀ (k : ℤ) (v : ℚ), (k, v) ∈ series → k ≤ d →
        (∀ kv ∈ series, kv.1 ≤ d → kv.1 ≤ k) → valueAsOf series d = some v)
    ∧ (∀ v : ℚ, (d, v) ∈ series → valueAsOf series d = some v)
    ∧ (∀ v : ℚ, valueAsOf series d = some v →
        ∃ k, (k, v) ∈ series ∧ k ≤ d ∧ ∀ kv ∈ series, kv.1 ≤ d → kv.1 ≤ k)
    ∧ ((∀ kv ∈ series, d < kv.1) → valueAsOf series d = none) := by
  refine ⟨?_, ?_, ?_, ?_⟩
  · intro k v hmem hkd hmax
    obtain ⟨b, hb⟩ := bestLE_isSome_of_mem hmem hkd
    obtain ⟨hbmem, hble, hbmax⟩ := bestLE_eq_some hb
    have hkb : ((k, v) : ℤ × ℚ).1 = b.1 :=
      le_antisymm (hbmax (k, v) hmem hkd) (hmax b hbmem hble)
    have hkvb : ((k, v) : ℤ × ℚ) = b := key_inj_of_pairwise hkeys hmem hbmem hkb
    unfold valueAsOf
    rw [hb, ← hkvb]
    rfl
  · intro v hv
    unfold valueAsOf
    rw [bestLE_exact hkeys hv]
    rfl
  · intro v hv
    unfold valueAsOf at hv
    cases hb : bestLE d series with
    | none => rw [hb] at hv; cases hv
    | some b =>
      rw [hb] at hv
      obtain ⟨hmem, hle, hmax⟩ := bestLE_eq_some hb
      injection hv with hv
      refine ⟨b.1, ?_, hle, hmax⟩
      have hbv : (b.1, v) = b := by
        rw [← hv]
      rw [hbv]
      exact hmem
  · intro h
    unfold valueAsOf
    rw [(bestLE_eq_none_iff d series).mpr h]
    rfl

theorem valueAsOf_spec_witness :
    valueAsOf [((1 : ℤ), (10 : ℚ)), (5, 20)] 3 = some 10 :=
  (valueAsOf_spec [(1, 10), (5, 20)] 3 (by decide)).1 1 10 (by decide) (by decide)
    (by decide)

/-- C8: a dividend event is emitted — and hence a dividend can be credited
during replay — only when the `get_portfolio` snapshot of the instrument on
the dividend date is strictly positive, and the event's share multiplier is
exactly that snapshot count; an instrument whose position on the dividend
date is short (negative) or zero never yields a dividend event. -/
theorem dividend_only_on_positive_position
    (tbl : List (ℤ × List (String × ℤ))) (tickers : List String)
    (lastProcessed : ℤ) (divFeed : String → List (ℤ × ℚ)) (e : Event)
    (he : e ∈ collectDividendEvents tbl tickers lastProcessed divFeed)
    (t : String) (perShare : ℚ) (shares : ℤ)
    (hd : e.data = .dividendEv t perShare shares) :
    List.lookup t (getPortfolio tbl e.date) = some shares ∧ 0 < shares := by
  unfold collectDividendEvents at he
  rw [List.mem_flatten] at he
  obtain ⟨l, hl, hel⟩ := he
  rw [List.mem_map] at hl
  obtain ⟨t', ht', rfl⟩ := hl
  by_cases hpos : anyPositiveAfter tbl t' lastProcessed = true
  · rw [if_pos hpos] at hel
    rw [List.mem_filterMap] at hel
    obtain ⟨dv, hdv, hmk⟩ := hel
    cases hlk : List.lookup t' (getPortfolio tbl dv.1) with
    | none =>
      rw [hlk] at hmk
      cases hmk
    | some s =>
      rw [hlk] at hmk
      dsimp only at hmk
      by_cases hs : 0 < s
      · rw [if_pos hs] at hmk
        injection hmk with hmk
        rw [← hmk] at hd ⊢
        injection hd with hdt hdp hds
        rw [← hdt, ← hds]
        exact ⟨hlk, hs⟩
      · rw [if_neg hs] at hmk
        cases hmk
  · rw [if_neg hpos] at hel
    cases hel

theorem dividend_only_on_positive_position_witness :
    List.lookup "X" (getPortfolio [(1, [("X", 10)])] 2) = some 10 ∧ (0 : ℤ) < 10 :=
  dividend_only_on_positive_position [(1, [("X", 10)])] ["X"] 0
    (fun _ => [(2, 2)]) ⟨2, .dividendEv "X" 2 10⟩ (by decide) "X" 2 10 rfl

/-! ## Price Table Builder (`generate_price_table` / `_fill_prices_forward`)

For each explicitly specified price the builder `INSERT OR REPLACE`s the
converted price at its date and then calls `_fill_prices_forward(ticker,
price, spec_date, spec_date + 1)`, intended to carry the price one day
forward.  The fill loop, however, stops (`break`) as soon as any row exists
for the current date — and its first iteration starts at `spec_date`, where
the specified price was just inserted. -/

/-- The `prices` table: rows `(Date, Ticker, Price_SEK)`. -/
abbrev PriceTbl := List (ℤ × String × ℚ)

/-- `SELECT 1 FROM prices WHERE Ticker = ? AND Date = ? LIMIT 1`. -/
def priceRowExists (tbl : PriceTbl) (t : String) (d : ℤ) : Bool :=
  tbl.any (fun e => e.1 == d && e.2.1 == t)

/-- `SELECT Price_SEK FROM prices WHERE Ticker = ? AND Date = ?` (exact
date, as issued inside the fill loop). -/
def priceRowLookup (tbl : PriceTbl) (t : String) (d : ℤ) : Option ℚ :=
  ((tbl.filter (fun e => e.1 == d && e.2.1 == t)).head?).map (fun e => e.2.2)

/-- Plain `INSERT INTO prices` (the loop checks existence first). -/
def insertPriceRow (tbl : PriceTbl) (d : ℤ) (t : String) (p : ℚ) : PriceTbl :=
  tbl ++ [(d, t, p)]

/-- `INSERT OR REPLACE INTO prices` on the primary key `(Date, Ticker)`. -/
def insertOrReplacePriceRow (tbl : PriceTbl) (d : ℤ) (t : String) (p : ℚ) : PriceTbl :=
  if priceRowExists tbl t d then
    tbl.map (fun e => if e.1 == d && e.2.1 == t then (d, t, p) else e)
  else tbl ++ [(d, t, p)]

/-- The body of `_fill_prices_forward`, with the remaining day count as
fuel: while `current_date <= end_date`, stop as soon as a row exists for the
current date, otherwise (re-checking, as the code does) insert the price and
advance one day. -/
def fillLoop (t : String) (p : ℚ) : ℕ → ℤ → PriceTbl → PriceTbl
  | 0, _, tbl => tbl
  | n + 1, cur, tbl =>
    if priceRowExists tbl t cur then tbl
    else
      let tbl2 := if (priceRowLookup tbl t cur).isSome then tbl
                  else insertPriceRow tbl cur t p
      fillLoop t p n (cur + 1) tbl2

/-- `_fill_prices_forward(ticker, price_sek, start_date, end_date)`: the
while loop runs over the dates `start_date .. end_date` inclusive. -/
def fillPricesForward (t : String) (p : ℚ) (startD endD : ℤ) (tbl : PriceTbl) :
    PriceTbl :=
  fillLoop t p (endD + 1 - startD).toNat startD tbl

/-- The per-specified-price step of `generate_price_table`: `INSERT OR
REPLACE` the converted price at `spec_date`, then forward-fill from
`spec_date` to `fill_end = spec_date + timedelta(days=1)`. -/
def specPriceStep (t : String) (specDate : ℤ) (priceSek : ℚ) (tbl : PriceTbl) :
    PriceTbl :=
  fillPricesForward t priceSek specDate (specDate + 1)
    (insertOrReplacePriceRow tbl specDate t priceSek)

/-- C6 (code evaluated at the failing input): inserting a specified price for
ticker `X` at day 5 into an empty price table leaves day 6 empty — the
forward-fill loop breaks immediately at day 5 on the row it just inserted,
so the specified price is never carried to `D + 1` even though no entry
exists there; the spec's no-overwrite guarantee holds vacuously because the
fill writes nothing at all. -/
theorem fill_forward_never_fills :
    specPriceStep "X" 5 100 [] = [((5 : ℤ), "X", (100 : ℚ))]
    ∧ priceRowExists (specPriceStep "X" 5 100 []) "X" 6 = false := by
  exact ⟨by decide, by decide⟩

/-! ## Valuation & Return Engine (`FinTrack.get_stock_returns`)

Per ticker: shares come from `get_portfolio` at the period bounds, prices
from `get_price` (nearest prior date), period transactions are classified
into cash outflows (`Buy`, `Cover`) and inflows (everything else, i.e.
`Sell`, `Short`), and the return is computed by a Modified-Dietz-style
branch structure. -/

/-- `shares * price if price else 0`: Python truthiness — a missing
(`None`) or zero price yields 0. -/
def positionValue (sh : ℤ) (pr : Option ℚ) : ℚ :=
  match pr with
  | some p => if p = 0 then 0 else sh * p
  | none => 0

/-- The flow-classification loop of `get_stock_returns`: resolve each
transaction's price as of its date (`continue` on `None`), then add
`amount × price` to outflows for `Buy`/`Cover` and to inflows otherwise. -/
def flowsLoop (priceAt : ℤ → Option ℚ) : List Txn → ℚ × ℚ → ℚ × ℚ
  | [], acc => acc
  | r :: rest, acc =>
    match priceAt r.date with
    | none => flowsLoop priceAt rest acc
    | some p =>
      if r.ty = "Buy" ∨ r.ty = "Cover" then
        flowsLoop priceAt rest (acc.1 + r.amount * p, acc.2)
      else
        flowsLoop priceAt rest (acc.1, acc.2 + r.amount * p)

/-- Period transactions of ticker `t`:
`df[(df["Date"] >= from_date) & (df["Date"] <= to_date)]` filtered to the
ticker. -/
def periodTxnsFor (rows : List Txn) (t : String) (fromD toD : ℤ) : List Txn :=
  rows.filter (fun r =>
    decide (fromD ≤ r.date) && decide (r.date ≤ toD) && (r.ticker == t))

/-- The branch structure of `get_stock_returns` once the flows are summed:
a fully closed position (zero end value with any start value or period
activity) divides the gain by `|start_value| + total_outflows` when that is
positive and reports nothing otherwise; an open position divides by
`|capital_at_risk|` and reports nothing when `capital_at_risk` is zero. -/
def returnFormula (startValue endValue out inf : ℚ) : Option ℚ :=
  let netInvestment := out - inf
  let capitalAtRisk := startValue + netInvestment
  let gainLoss := endValue - startValue - netInvestment
  if endValue = 0 ∧ (startValue ≠ 0 ∨ 0 < out ∨ 0 < inf) then
    let totalDeployed := |startValue| + out
    if 0 < totalDeployed then some (gainLoss / totalDeployed) else none
  else if capitalAtRisk ≠ 0 then some (gainLoss / |capitalAtRisk|) else none

/-- The per-ticker computation of `get_stock_returns`.  `prices` is the
ticker's slice of the `prices` table; `get_price` lookups are `valueAsOf`
over it. -/
def getStockReturn (rows : List Txn) (t : String) (prices : List (ℤ × ℚ))
    (fromD toD : ℤ) : Option ℚ :=
  let startShares := (List.lookup t (getPortfolio (portfolioTable rows) fromD)).getD 0
  let startValue := positionValue startShares (valueAsOf prices fromD)
  let endShares := (List.lookup t (getPortfolio (portfolioTable rows) toD)).getD 0
  let endValue := positionValue endShares (valueAsOf prices toD)
  let flows := flowsLoop (fun d => valueAsOf prices d) (periodTxnsFor rows t fromD toD) (0, 0)
  returnFormula startValue endValue flows.1 flows.2

/-- Written from the spec's words: the outflow cash amounts are
`amount × price` summed over period `Buy`/`Cover` transactions whose price
resolves. -/
def specOutflows (priceAt : ℤ → Option ℚ) (txs : List Txn) : ℚ :=
  (txs.filterMap (fun r =>
    (priceAt r.date).bind (fun p =>
      if r.ty = "Buy" ∨ r.ty = "Cover" then some ((r.amount : ℚ) * p) else none))).sum

/-- Written from the spec's words: the inflow cash amounts, summed over the
remaining (`Sell`, `Short`) period transactions whose price resolves. -/
def specInflows (priceAt : ℤ → Option ℚ) (txs : List Txn) : ℚ :=
  (txs.filterMap (fun r =>
    (priceAt r.date).bind (fun p =>
      if r.ty = "Buy" ∨ r.ty = "Cover" then none else some ((r.amount : ℚ) * p)))).sum

/-- Written from the spec's words (§4.5): with `net_investment = outflows -
inflows`, a closed position (`end_value` zero with a nonzero start value or
any period activity) reports `(end - start - net) / (|start| + outflows)`,
omitted when that denominator is zero; otherwise `capital_at_risk = start +
net` and the report is `(end - start - net) / |capital_at_risk|`, omitted
when `capital_at_risk` is exactly zero. -/
def specReturnFormula (S E O I : ℚ) : Option ℚ :=
  if E = 0 ∧ (S ≠ 0 ∨ O ≠ 0 ∨ I ≠ 0) then
    if |S| + O = 0 then none else some ((E - S - (O - I)) / (|S| + O))
  else
    if S + (O - I) = 0 then none else some ((E - S - (O - I)) / |S + (O - I)|)

theorem flowsLoop_eq (priceAt : ℤ → Option ℚ) (txs : List Txn) :
    ∀ a b : ℚ, flowsLoop priceAt txs (a, b)
      = (a + specOutflows priceAt txs, b + specInflows priceAt txs) := by
  induction txs with
  | nil => intro a b; simp [flowsLoop, specOutflows, specInflows]
  | cons r rest ih =>
    intro a b
    simp only [flowsLoop]
    cases hp : priceAt r.date with
    | none =>
      rw [ih]
      simp [specOutflows, specInflows, List.filterMap_cons, hp]
    | some p =>
      dsimp only
      by_cases hty : r.ty = "Buy" ∨ r.ty = "Cover"
      · rw [if_pos hty, ih]
        simp only [specOutflows, specInflows, List.filterMap_cons, hp, Option.some_bind,
          if_pos hty, List.sum_cons, Prod.mk.injEq]
        exact ⟨by rw [add_assoc], trivial⟩
      · rw [if_neg hty, ih]
        simp only [specOutflows, specInflows, List.filterMap_cons, hp, Option.some_bind,
          if_neg hty, List.sum_cons, Prod.mk.injEq]
        exact ⟨trivial, by rw [add_assoc]⟩

theorem returnFormula_eq_spec (S E O I : ℚ) (hO : 0 ≤ O) (hI : 0 ≤ I) :
    returnFormula S E O I = specReturnFormula S E O I := by
  have hOiff : O ≠ 0 ↔ 0 < O := ⟨fun h => lt_of_le_of_ne hO (Ne.symm h), ne_of_gt⟩
  have hIiff : I ≠ 0 ↔ 0 < I := ⟨fun h => lt_of_le_of_ne hI (Ne.symm h), ne_of_gt⟩
  have hDiff : (|S| + O = 0) ↔ ¬ (0 < |S| + O) := by
    constructor
    · intro h; rw [h]; exact lt_irrefl 0
    · intro h
      have habs := abs_nonneg S
      exact le_antisymm (not_lt.mp h) (by linarith)
  unfold returnFormula specReturnFormula
  dsimp only
  simp only [hOiff, hIiff, hDiff, ite_not]

/-- C3: per instrument, `get_stock_returns` reports exactly the spec's
Modified-Dietz formula: with `S`/`E` the signed start/end position values,
`O`/`I` the period outflow/inflow sums and `net = O - I`, a closed position
(`E = 0` with nonzero start value or any activity) yields
`(E - S - net) / (|S| + O)`, omitted when that denominator is zero;
otherwise `capital_at_risk = S + net` yields `(E - S - net) /
|capital_at_risk|`, omitted when `capital_at_risk` is exactly zero.  The
nonnegativity hypotheses hold for every real log (amounts and stored prices
are nonnegative). -/
theorem stock_return_matches_spec (rows : List Txn) (t : String)
    (prices : List (ℤ × ℚ)) (fromD toD : ℤ)
    (hO : 0 ≤ specOutflows (fun d => valueAsOf prices d) (periodTxnsFor rows t fromD toD))
    (hI : 0 ≤ specInflows (fun d => valueAsOf prices d) (periodTxnsFor rows t fromD toD)) :
    getStockReturn rows t prices fromD toD
      = specReturnFormula
          (positionValue ((List.lookup t (getPortfolio (portfolioTable rows) fromD)).getD 0)
            (valueAsOf prices fromD))
          (positionValue ((List.lookup t (getPortfolio (portfolioTable rows) toD)).getD 0)
            (valueAsOf prices toD))
          (specOutflows (fun d => valueAsOf prices d) (periodTxnsFor rows t fromD toD))
          (specInflows (fun d => valueAsOf prices d) (periodTxnsFor rows t fromD toD)) := by
  unfold getStockReturn
  rw [flowsLoop_eq]
  simp only [zero_add]
  exact returnFormula_eq_spec _ _ _ _ hO hI

theorem stock_return_matches_spec_witness :
    getStockReturn [⟨1, "X", "Buy", 10, some 100⟩, ⟨10, "X", "Sell", 5, some 120⟩]
        "X" [(1, 100), (10, 120)] 2 10 = some (1 / 2) := by
  have hO : specOutflows (fun d => valueAsOf [((1 : ℤ), (100 : ℚ)), (10, 120)] d)
      (periodTxnsFor [⟨1, "X", "Buy", 10, some 100⟩, ⟨10, "X", "Sell", 5, some 120⟩]
        "X" 2 10) = 0 := by
    simp [specOutflows, periodTxnsFor, valueAsOf, bestLE]
  have hI : specInflows (fun d => valueAsOf [((1 : ℤ), (100 : ℚ)), (10, 120)] d)
      (periodTxnsFor [⟨1, "X", "Buy", 10, some 100⟩, ⟨10, "X", "Sell", 5, some 120⟩]
        "X" 2 10) = 600 := by
    simp [specInflows, periodTxnsFor, valueAsOf, bestLE]
    norm_num
  have hS : positionValue
      ((List.lookup "X" (getPortfolio (portfolioTable
          [⟨1, "X", "Buy", 10, some 100⟩, ⟨10, "X", "Sell", 5, some 120⟩]) 2)).getD 0)
      (valueAsOf [((1 : ℤ), (100 : ℚ)), (10, 120)] 2) = 1000 := by
    simp [positionValue, getPortfolio, portfolioTable, datesOf, tickersOf, holdingRow,
      storedHolding, selTxns, cumHoldings, inflowsOf, outflowsOf, valueAsOf, bestLE,
      List.insertionSort, List.orderedInsert, List.dedup]
    norm_num
  have hE : positionValue
      ((List.lookup "X" (getPortfolio (portfolioTable
          [⟨1, "X", "Buy", 10, some 100⟩, ⟨10, "X", "Sell", 5, some 120⟩]) 10)).getD 0)
      (valueAsOf [((1 : ℤ), (100 : ℚ)), (10, 120)] 10) = 600 := by
    simp [positionValue, getPortfolio, portfolioTable, datesOf, tickersOf, holdingRow,
      storedHolding, selTxns, cumHoldings, inflowsOf, outflowsOf, valueAsOf, bestLE,
      List.insertionSort, List.orderedInsert, List.dedup]
    norm_num
  rw [stock_return_matches_spec _ _ _ _ _ (by rw [hO]) (by rw [hI]; norm_num),
    hO, hI, hS, hE]
  simp [specReturnFormula]
  norm_num
